import Mathlib

/-!
Verification of the backup export/import and comparison subsystem
(`src/sentry/runner/commands/backup.py` and the comparator framework
exercised by `tests/sentry/backup/test_comparators.py`).

The development shallowly embeds the relevant Python code in Lean:
pure functions become Lean functions, the database / transaction
collaborators become explicit state passing, and fallible code returns
`Except`.  Strings are modelled by Lean `String` (Python `str` over the
ASCII fragment actually used by the code).
-/

/-! ## String utilities

Substring containment ("the message names X", "the reason contains Y")
is used throughout.  `Mentions s x` says that `x` occurs contiguously
inside `s`.  A boolean checker plus a correctness lemma make the
predicate decidable, so concrete claims can be settled by `decide`. -/

/-- Boolean test that a list of characters starts with `x`. -/
def prefCheck : List Char → List Char → Bool
  | [], _ => true
  | _ :: _, [] => false
  | a :: x, b :: s => a == b && prefCheck x s

/-- Boolean test that `x` occurs contiguously somewhere inside `s`. -/
def infixCheck (x : List Char) : List Char → Bool
  | [] => prefCheck x []
  | s :: rest => prefCheck x (s :: rest) || infixCheck x rest

/-- Substring containment on strings: `x` occurs contiguously in `s`. -/
def Mentions (s x : String) : Prop := ∃ p q : String, s = p ++ x ++ q

theorem prefCheck_iff (x s : List Char) : prefCheck x s = true ↔ ∃ q, s = x ++ q := by
  induction x generalizing s with
  | nil => simp [prefCheck]
  | cons a x ih =>
    cases s with
    | nil => simp [prefCheck]
    | cons b s =>
      simp only [prefCheck, Bool.and_eq_true, beq_iff_eq, ih, List.cons_append,
        List.cons.injEq]
      constructor
      · rintro ⟨rfl, q, rfl⟩; exact ⟨q, rfl, rfl⟩
      · rintro ⟨q, rfl, rfl⟩; exact ⟨rfl, q, rfl⟩

theorem infixCheck_iff (x s : List Char) :
    infixCheck x s = true ↔ ∃ p q, s = p ++ x ++ q := by
  induction s with
  | nil =>
    simp only [infixCheck, prefCheck_iff]
    constructor
    · rintro ⟨q, h⟩; exact ⟨[], q, by simpa using h⟩
    · rintro ⟨p, q, h⟩
      rcases List.append_eq_nil.mp (List.append_eq_nil.mp h.symm).1 with ⟨rfl, rfl⟩
      exact ⟨q, by simpa using h⟩
  | cons b s ih =>
    simp only [infixCheck, Bool.or_eq_true, prefCheck_iff, ih]
    constructor
    · rintro (⟨q, h⟩ | ⟨p, q, h⟩)
      · exact ⟨[], q, by simpa using h⟩
      · exact ⟨b :: p, q, by simp [h]⟩
    · rintro ⟨p, q, h⟩
      cases p with
      | nil => exact Or.inl ⟨q, by simpa using h⟩
      | cons c p =>
        simp only [List.cons_append, List.cons.injEq] at h
        exact Or.inr ⟨p, q, h.2⟩

theorem mentions_iff (s x : String) : Mentions s x ↔ infixCheck x.data s.data = true := by
  rw [infixCheck_iff]
  constructor
  · rintro ⟨p, q, rfl⟩
    exact ⟨p.data, q.data, by simp [String.data_append]⟩
  · rintro ⟨p, q, h⟩
    refine ⟨⟨p⟩, ⟨q⟩, String.ext ?_⟩
    simp [String.data_append, h]

instance (s x : String) : Decidable (Mentions s x) :=
  decidable_of_iff _ (mentions_iff s x).symm

theorem mentions_refl (x : String) : Mentions x x :=
  ⟨"", "", String.ext (by simp [String.data_append])⟩

theorem Mentions.append_left (t : String) {s x : String} (h : Mentions s x) :
    Mentions (t ++ s) x := by
  obtain ⟨p, q, rfl⟩ := h
  exact ⟨t ++ p, q, by simp [String.append_assoc]⟩

theorem Mentions.append_right (t : String) {s x : String} (h : Mentions s x) :
    Mentions (s ++ t) x := by
  obtain ⟨p, q, rfl⟩ := h
  exact ⟨p, q ++ t, by simp [String.append_assoc]⟩

/-- Embedding of Python's `sep.join(pieces)`. -/
def joinWith (sep : String) : List String → String
  | [] => ""
  | [x] => x
  | x :: y :: rest => x ++ sep ++ joinWith sep (y :: rest)

theorem mentions_joinWith (sep : String) (l : List String) (x : String) (hx : x ∈ l) :
    Mentions (joinWith sep l) x := by
  induction l with
  | nil => cases hx
  | cons a rest ih =>
    cases rest with
    | nil =>
      rcases List.mem_cons.mp hx with rfl | h
      · exact mentions_refl x
      · cases h
    | cons b rest2 =>
      rcases List.mem_cons.mp hx with rfl | h
      · exact ((mentions_refl x).append_right sep).append_right (joinWith sep (b :: rest2))
      · exact (ih h).append_left (a ++ sep)

/-! ## Dependency resolver (`sort_dependencies`, backup.py lines 54-147)

Models are identified by their Django app label and class name.  The
registry metadata the code reads through Django reflection (natural-key
dependency declarations, foreign-key targets, many-to-many targets and
whether the relation goes through an explicitly declared model) is
embedded as explicit data. -/

/-- Identity of a Django model class: app label plus class name. -/
structure MRef where
  app : String
  name : String
deriving DecidableEq, Repr

/-- Registry metadata of one model, as read by `sort_dependencies`:
`natDeps` are the models named by `model.natural_key.dependencies`
(already resolved, as `apps.get_model` does); `fkTargets` holds
`field.remote_field.model` for each entry of `model._meta.fields`
(`none` for non-relational fields); `m2mFields` holds the target of each
`ManyToManyField` of `model._meta.get_fields()` together with a flag
recording whether the relation is declared with an explicit `through`
model. -/
structure ModelDef where
  ref : MRef
  hasNaturalKey : Bool
  natDeps : List MRef
  fkTargets : List (Option MRef)
  m2mFields : List (Option MRef × Bool)
deriving DecidableEq, Repr

/-- One Django app config: a label and its models, in registry order. -/
structure AppConfig where
  label : String
  models : List ModelDef
deriving DecidableEq, Repr

/-- Apps excluded from backup processing (backup.py line 16). -/
def EXCLUDED_APPS : List String := ["auth", "contenttypes"]

/-- Identity of `sentry.models.actor.Actor`. -/
def actorRef : MRef := ⟨"sentry", "Actor"⟩

/-- Identity of `sentry.models.team.Team`. -/
def teamRef : MRef := ⟨"sentry", "Team"⟩

/-- Identity of `sentry.models.user.User`. -/
def userRef : MRef := ⟨"sentry", "User"⟩

/-- Dependency-list derivation for one model (backup.py lines 76-107):
natural-key dependencies, then every foreign-key target other than the
model itself (skipping the hand-declared Actor to Team / User
suppression), then every many-to-many target other than the model
itself.  The code appends a many-to-many target regardless of whether
the relation has an explicit `through` model: the `through` flag of the
field is never consulted. -/
def modelDeps (m : ModelDef) : List MRef :=
  (if m.hasNaturalKey then m.natDeps else [])
  ++ m.fkTargets.filterMap (fun r =>
      match r with
      | some rel =>
        if rel ≠ m.ref then
          if m.ref = actorRef ∧ (rel = teamRef ∨ rel = userRef) then none else some rel
        else none
      | none => none)
  ++ m.m2mFields.filterMap (fun rt =>
      match rt.1 with
      | some rel => if rel ≠ m.ref then some rel else none
      | none => none)

/-- The app configs that survive the `EXCLUDED_APPS` filter
(backup.py lines 68-70). -/
def includedApps (registry : List AppConfig) : List AppConfig :=
  registry.filter (fun a => !(EXCLUDED_APPS.contains a.label))

/-- The `models` set built by the discovery loop: every model of every
non-excluded app (backup.py line 75). -/
def consideredModels (registry : List AppConfig) : List MRef :=
  (includedApps registry).flatMap (fun a => a.models.map (fun m => m.ref))

/-- The `model_dependencies` list built by the discovery loop, in
discovery order, before the final `reverse()` (backup.py line 107). -/
def modelDependenciesList (registry : List AppConfig) : List (MRef × List MRef) :=
  (includedApps registry).flatMap (fun a => a.models.map (fun m => (m.ref, modelDeps m)))

/-- Readiness check of the promotion loop (backup.py lines 128-131): a
model is ready when each dependency is either outside the considered
model set or already placed on the final list. -/
def isReady (models modelList : List MRef) (deps : List MRef) : Bool :=
  deps.all (fun d => !(models.contains d) || modelList.contains d)

/-- One full scan of the work list (the inner `while` of backup.py lines
122-136).  The first argument list is in pop order (head = next popped
item); ready models are appended to the final list, others to
`skipped`. -/
def scanPass (models : List MRef) :
    List (MRef × List MRef) → List (MRef × List MRef) → List MRef → Bool →
    List (MRef × List MRef) × List MRef × Bool
  | [], skipped, out, changed => (skipped, out, changed)
  | (m, deps) :: rest, skipped, out, changed =>
    if isReady models out deps then scanPass models rest skipped (out ++ [m]) true
    else scanPass models rest (skipped ++ [(m, deps)]) out changed

/-- Stable insertion of a work item into a list sorted by model class
name. -/
def insertByName (p : MRef × List MRef) :
    List (MRef × List MRef) → List (MRef × List MRef)
  | [] => [p]
  | q :: rest =>
    if p.1.name ≤ q.1.name then p :: q :: rest else q :: insertByName p rest

/-- Embedding of `sorted(skipped, key=lambda obj: obj[0].__name__)`
(backup.py line 142): a stable sort by model class name. -/
def sortByName (l : List (MRef × List MRef)) : List (MRef × List MRef) :=
  l.foldr insertByName []

/-- Qualified model name `f"{app_label}.{object_name}"` as printed by the
error message (backup.py line 141). -/
def qualName (r : MRef) : String := r.app ++ "." ++ r.name

/-- The `RuntimeError` message raised on an unresolvable cycle
(backup.py lines 138-144). -/
def stuckMessage (skipped : List (MRef × List MRef)) : String :=
  "Can\x27t resolve dependencies for " ++
    joinWith ", " ((sortByName skipped).map (fun p => qualName p.1)) ++
    " in serialized app list."

theorem scanPass_cons_pos (models : List MRef) (m : MRef) (deps : List MRef)
    (rest sk : List (MRef × List MRef)) (out : List MRef) (c : Bool)
    (h : isReady models out deps = true) :
    scanPass models ((m, deps) :: rest) sk out c
      = scanPass models rest sk (out ++ [m]) true := by
  simp [scanPass, h]

theorem scanPass_cons_neg (models : List MRef) (m : MRef) (deps : List MRef)
    (rest sk : List (MRef × List MRef)) (out : List MRef) (c : Bool)
    (h : isReady models out deps = false) :
    scanPass models ((m, deps) :: rest) sk out c
      = scanPass models rest (sk ++ [(m, deps)]) out c := by
  simp [scanPass, h]

theorem scanPass_length (models : List MRef) (l sk : List (MRef × List MRef))
    (out : List MRef) (c : Bool) :
    (scanPass models l sk out c).1.length + (scanPass models l sk out c).2.1.length
      = sk.length + out.length + l.length := by
  induction l generalizing sk out c with
  | nil => simp [scanPass]
  | cons p rest ih =>
    obtain ⟨m, deps⟩ := p
    cases h : isReady models out deps
    · rw [scanPass_cons_neg models m deps rest sk out c h, ih]
      simp; omega
    · rw [scanPass_cons_pos models m deps rest sk out c h, ih]
      simp; omega

theorem scanPass_out_src (models : List MRef) (l sk : List (MRef × List MRef))
    (out : List MRef) (c : Bool) :
    ∃ t, (scanPass models l sk out c).2.1 = out ++ t ∧
      ∀ x ∈ t, x ∈ l.map Prod.fst := by
  induction l generalizing sk out c with
  | nil => exact ⟨[], by simp [scanPass], by simp⟩
  | cons p rest ih =>
    obtain ⟨m, deps⟩ := p
    cases h : isReady models out deps
    · rw [scanPass_cons_neg models m deps rest sk out c h]
      obtain ⟨t, ht, hmem⟩ := ih (sk ++ [(m, deps)]) out c
      refine ⟨t, ht, fun x hx => ?_⟩
      simp only [List.map_cons, List.mem_cons]
      exact Or.inr (hmem x hx)
    · rw [scanPass_cons_pos models m deps rest sk out c h]
      obtain ⟨t, ht, hmem⟩ := ih sk (out ++ [m]) true
      refine ⟨m :: t, by simp [ht], ?_⟩
      intro x hx
      rcases List.mem_cons.mp hx with rfl | hx
      · simp
      · simp only [List.map_cons, List.mem_cons]
        exact Or.inr (hmem x hx)

theorem scanPass_changed_gt (models : List MRef) (l sk : List (MRef × List MRef))
    (out : List MRef)
    (h : (scanPass models l sk out false).2.2 = true) :
    out.length < (scanPass models l sk out false).2.1.length := by
  induction l generalizing sk out with
  | nil => simp [scanPass] at h
  | cons p rest ih =>
    obtain ⟨m, deps⟩ := p
    cases hr : isReady models out deps
    · rw [scanPass_cons_neg models m deps rest sk out false hr] at h ⊢
      exact ih (sk ++ [(m, deps)]) out h
    · rw [scanPass_cons_pos models m deps rest sk out false hr]
      obtain ⟨t, ht, -⟩ := scanPass_out_src models rest sk (out ++ [m]) true
      rw [ht]
      simp

theorem scanPass_mem_sk (models : List MRef) (l sk : List (MRef × List MRef))
    (out : List MRef) (c : Bool) (p : MRef × List MRef)
    (hp : p ∈ (scanPass models l sk out c).1) : p ∈ sk ∨ p ∈ l := by
  induction l generalizing sk out c with
  | nil => exact Or.inl (by simpa [scanPass] using hp)
  | cons q rest ih =>
    obtain ⟨m, deps⟩ := q
    cases h : isReady models out deps
    · rw [scanPass_cons_neg models m deps rest sk out c h] at hp
      rcases ih (sk ++ [(m, deps)]) out c hp with hs | hs
      · rcases List.mem_append.mp hs with hs | hs
        · exact Or.inl hs
        · exact Or.inr (by rw [List.mem_singleton.mp hs]; exact List.mem_cons_self _ _)
      · exact Or.inr (List.mem_cons_of_mem _ hs)
    · rw [scanPass_cons_pos models m deps rest sk out c h] at hp
      rcases ih sk (out ++ [m]) true hp with hs | hs
      · exact Or.inl hs
      · exact Or.inr (List.mem_cons_of_mem _ hs)

theorem scanPass_sk_extend (models : List MRef) (l sk : List (MRef × List MRef))
    (out : List MRef) (c : Bool) :
    ∃ u, (scanPass models l sk out c).1 = sk ++ u := by
  induction l generalizing sk out c with
  | nil => exact ⟨[], by simp [scanPass]⟩
  | cons q rest ih =>
    obtain ⟨m, deps⟩ := q
    cases h : isReady models out deps
    · rw [scanPass_cons_neg models m deps rest sk out c h]
      obtain ⟨u, hu⟩ := ih (sk ++ [(m, deps)]) out c
      exact ⟨(m, deps) :: u, by simp [hu]⟩
    · rw [scanPass_cons_pos models m deps rest sk out c h]
      exact ih sk (out ++ [m]) true

theorem scanPass_cover (models : List MRef) (l sk : List (MRef × List MRef))
    (out : List MRef) (c : Bool) (p : MRef × List MRef) (hp : p ∈ l) :
    p.1 ∈ (scanPass models l sk out c).2.1 ∨ p ∈ (scanPass models l sk out c).1 := by
  induction l generalizing sk out c with
  | nil => cases hp
  | cons q rest ih =>
    obtain ⟨m, deps⟩ := q
    cases h : isReady models out deps
    · rw [scanPass_cons_neg models m deps rest sk out c h]
      rcases List.mem_cons.mp hp with rfl | hp
      · obtain ⟨u, hu⟩ := scanPass_sk_extend models rest (sk ++ [(m, deps)]) out c
        refine Or.inr ?_
        rw [hu]
        simp
      · exact ih (sk ++ [(m, deps)]) out c hp
    · rw [scanPass_cons_pos models m deps rest sk out c h]
      rcases List.mem_cons.mp hp with rfl | hp
      · obtain ⟨t, ht, -⟩ := scanPass_out_src models rest sk (out ++ [m]) true
        exact Or.inl (by rw [ht]; simp)
      · exact ih sk (out ++ [m]) true hp

theorem scanPass_perm (models : List MRef) (l sk : List (MRef × List MRef))
    (out : List MRef) (c : Bool) :
    ((scanPass models l sk out c).2.1 ++ (scanPass models l sk out c).1.map Prod.fst).Perm
      (out ++ (sk.map Prod.fst ++ l.map Prod.fst)) := by
  induction l generalizing sk out c with
  | nil => simp [scanPass]
  | cons q rest ih =>
    obtain ⟨m, deps⟩ := q
    cases h : isReady models out deps
    · rw [scanPass_cons_neg models m deps rest sk out c h]
      refine (ih (sk ++ [(m, deps)]) out c).trans ?_
      simp [List.append_assoc]
    · rw [scanPass_cons_pos models m deps rest sk out c h]
      refine (ih sk (out ++ [m]) true).trans ?_
      have he : (out ++ [m]) ++ (sk.map Prod.fst ++ rest.map Prod.fst)
          = out ++ (m :: (sk.map Prod.fst ++ rest.map Prod.fst)) := by
        simp
      rw [he]
      simp only [List.map_cons]
      exact List.Perm.append_left out List.perm_middle.symm

theorem scanPass_none (models : List MRef) (l sk : List (MRef × List MRef))
    (out : List MRef)
    (h : ∀ p ∈ l, isReady models out p.2 = false) :
    scanPass models l sk out false = (sk ++ l, out, false) := by
  induction l generalizing sk with
  | nil => simp [scanPass]
  | cons q rest ih =>
    obtain ⟨m, deps⟩ := q
    have hm : isReady models out deps = false := h (m, deps) (List.mem_cons_self _ _)
    rw [scanPass_cons_neg models m deps rest sk out false hm]
    rw [ih (sk ++ [(m, deps)]) (fun p hp => h p (List.mem_cons_of_mem _ hp))]
    simp

theorem scanPass_changed_mono (models : List MRef) (l sk : List (MRef × List MRef))
    (out : List MRef) :
    (scanPass models l sk out true).2.2 = true := by
  induction l generalizing sk out with
  | nil => simp [scanPass]
  | cons q rest ih =>
    obtain ⟨m, deps⟩ := q
    cases h : isReady models out deps
    · rw [scanPass_cons_neg models m deps rest sk out true h]
      exact ih (sk ++ [(m, deps)]) out
    · rw [scanPass_cons_pos models m deps rest sk out true h]
      exact ih sk (out ++ [m])

theorem scanPass_progress (models : List MRef) (l sk : List (MRef × List MRef))
    (out : List MRef) (c : Bool) (p : MRef × List MRef) (hp : p ∈ l)
    (hr : isReady models out p.2 = true) :
    (scanPass models l sk out c).2.2 = true := by
  induction l generalizing sk out c with
  | nil => cases hp
  | cons q rest ih =>
    obtain ⟨m, deps⟩ := q
    cases h : isReady models out deps
    · rw [scanPass_cons_neg models m deps rest sk out c h]
      rcases List.mem_cons.mp hp with rfl | hp
      · rw [hr] at h; cases h
      · exact ih (sk ++ [(m, deps)]) out c hp hr
    · rw [scanPass_cons_pos models m deps rest sk out c h]
      exact scanPass_changed_mono models rest sk (out ++ [m])

theorem scanPass_before (models : List MRef) (l sk : List (MRef × List MRef))
    (out : List MRef) (c : Bool)
    (hnd : (out ++ l.map Prod.fst).Nodup) (p : MRef × List MRef) (hp : p ∈ l)
    (hpo : p.1 ∈ (scanPass models l sk out c).2.1)
    (d : MRef) (hd : d ∈ p.2) (hdm : models.contains d = true) :
    ∃ pre suf, (scanPass models l sk out c).2.1 = pre ++ p.1 :: suf ∧ d ∈ pre := by
  induction l generalizing sk out c with
  | nil => cases hp
  | cons q rest ih =>
    obtain ⟨m, deps⟩ := q
    cases h : isReady models out deps
    · rw [scanPass_cons_neg models m deps rest sk out c h] at hpo ⊢
      rcases List.mem_cons.mp hp with rfl | hp
      · exfalso
        obtain ⟨t, ht, hts⟩ := scanPass_out_src models rest (sk ++ [(m, deps)]) out c
        rw [ht] at hpo
        rcases List.mem_append.mp hpo with hmo | hmt
        · have hdisj := (List.nodup_append.mp hnd).2.2
          exact hdisj hmo (by simp)
        · have hnd2 := (List.nodup_append.mp hnd).2.1
          simp only [List.map_cons, List.nodup_cons] at hnd2
          exact hnd2.1 (hts _ hmt)
      · refine ih (sk ++ [(m, deps)]) out c ?_ hp hpo
        have hsub : (out ++ rest.map Prod.fst).Sublist
            (out ++ (m :: rest.map Prod.fst)) :=
          List.Sublist.append_left (List.sublist_cons_self _ _) out
        exact hsub.nodup (by simpa using hnd)
    · rw [scanPass_cons_pos models m deps rest sk out c h] at hpo ⊢
      rcases List.mem_cons.mp hp with rfl | hp
      · obtain ⟨t, ht, -⟩ := scanPass_out_src models rest sk (out ++ [m]) true
        refine ⟨out, t, by simpa using ht, ?_⟩
        have hA := List.all_eq_true.mp h d hd
        rw [hdm] at hA
        simpa using hA
      · refine ih sk (out ++ [m]) true ?_ hp hpo
        have he : (out ++ [m]) ++ rest.map Prod.fst
            = out ++ (m :: rest.map Prod.fst) := by simp
        rw [he]
        simpa using hnd


/-- The outer promotion loop of `sort_dependencies` (backup.py lines
118-145).  `work` is the Python `model_dependencies` list in Python list
order (the inner loop pops from its end, so a scan processes
`work.reverse` head first); `out` is the `model_list` accumulator.  A
scan that promotes nothing while work remains raises the
`RuntimeError`, embedded as `Except.error` carrying the message. -/
def sortLoop (models : List MRef) (work : List (MRef × List MRef)) (out : List MRef) :
    Except String (List MRef) :=
  if hw : work = [] then .ok out
  else
    if h : (scanPass models work.reverse [] out false).2.2 = true then
      sortLoop models (scanPass models work.reverse [] out false).1
        (scanPass models work.reverse [] out false).2.1
    else .error (stuckMessage (scanPass models work.reverse [] out false).1)
termination_by work.length
decreasing_by
  have hlen := scanPass_length models work.reverse [] out false
  have hgt := scanPass_changed_gt models work.reverse [] out h
  simp only [List.length_reverse, List.length_nil] at hlen
  have hne : work.length ≠ 0 := fun hh => hw (List.length_eq_zero.mp hh)
  omega

/-- Embedding of `sort_dependencies` (backup.py lines 54-147): build the
work list from the registry, reverse it, then run the promotion loop. -/
def sort_dependencies (registry : List AppConfig) : Except String (List MRef) :=
  sortLoop (consideredModels registry) (modelDependenciesList registry).reverse []

theorem sortLoop_nil (models : List MRef) (out : List MRef) :
    sortLoop models [] out = .ok out := by
  rw [sortLoop]
  simp

theorem sortLoop_ne_nil (models : List MRef) (work : List (MRef × List MRef))
    (out : List MRef) (hw : work ≠ []) :
    sortLoop models work out =
      (if (scanPass models work.reverse [] out false).2.2 = true then
        sortLoop models (scanPass models work.reverse [] out false).1
          (scanPass models work.reverse [] out false).2.1
      else .error (stuckMessage (scanPass models work.reverse [] out false).1)) := by
  rw [sortLoop]
  simp [hw]

theorem insertByName_perm (p : MRef × List MRef) (l : List (MRef × List MRef)) :
    (insertByName p l).Perm (p :: l) := by
  induction l with
  | nil => simp [insertByName]
  | cons q rest ih =>
    rw [insertByName]
    by_cases h : p.1.name ≤ q.1.name
    · rw [if_pos h]
    · rw [if_neg h]
      exact (ih.cons q).trans (List.Perm.swap p q rest)

theorem sortByName_perm (l : List (MRef × List MRef)) : (sortByName l).Perm l := by
  induction l with
  | nil => simp [sortByName]
  | cons q rest ih =>
    exact (insertByName_perm q (sortByName rest)).trans (ih.cons q)

theorem insertByName_sorted (p : MRef × List MRef) (l : List (MRef × List MRef))
    (hs : List.Pairwise (fun a b : MRef × List MRef => a.1.name ≤ b.1.name) l) :
    List.Pairwise (fun a b : MRef × List MRef => a.1.name ≤ b.1.name)
      (insertByName p l) := by
  induction l with
  | nil => simp [insertByName]
  | cons q rest ih =>
    obtain ⟨hq, hrest⟩ := List.pairwise_cons.mp hs
    rw [insertByName]
    by_cases h : p.1.name ≤ q.1.name
    · rw [if_pos h]
      refine List.Pairwise.cons ?_ hs
      intro b hb
      rcases List.mem_cons.mp hb with rfl | hb
      · exact h
      · exact le_trans h (hq b hb)
    · rw [if_neg h]
      refine List.Pairwise.cons ?_ (ih hrest)
      intro b hb
      rcases List.mem_cons.mp ((insertByName_perm p rest).mem_iff.mp hb) with rfl | hb2
      · exact le_of_not_le h
      · exact hq b hb2

theorem sortByName_sorted (l : List (MRef × List MRef)) :
    List.Pairwise (fun a b : MRef × List MRef => a.1.name ≤ b.1.name) (sortByName l) := by
  induction l with
  | nil => simp [sortByName]
  | cons q rest ih => exact insertByName_sorted q (sortByName rest) ih

theorem exists_rank_min (rank : MRef → Nat) (l : List (MRef × List MRef)) (h : l ≠ []) :
    ∃ p ∈ l, ∀ q ∈ l, rank p.1 ≤ rank q.1 := by
  induction l with
  | nil => simp at h
  | cons x rest ih =>
    cases rest with
    | nil => exact ⟨x, by simp, by simp⟩
    | cons y t =>
      obtain ⟨a, ha, hmin⟩ := ih (by simp)
      by_cases hxa : rank x.1 ≤ rank a.1
      · refine ⟨x, by simp, ?_⟩
        intro b hb
        rcases List.mem_cons.mp hb with rfl | hb
        · exact le_refl _
        · exact le_trans hxa (hmin b hb)
      · refine ⟨a, List.mem_cons_of_mem _ ha, ?_⟩
        intro b hb
        rcases List.mem_cons.mp hb with rfl | hb
        · exact le_of_not_le hxa
        · exact hmin b hb

theorem sortLoop_ok (models : List MRef) (rank : MRef → Nat) :
    ∀ (n : Nat) (work : List (MRef × List MRef)) (out : List MRef),
    work.length ≤ n →
    (out ++ work.map Prod.fst).Nodup →
    (∀ x, models.contains x = true → x ∈ out ∨ x ∈ work.map Prod.fst) →
    (∀ p ∈ work, ∀ d ∈ p.2, models.contains d = true → rank d < rank p.1) →
    ∃ res, sortLoop models work out = .ok res ∧
      (∃ t, res = out ++ t) ∧
      res.Perm (out ++ work.map Prod.fst) ∧
      ∀ p ∈ work, ∀ d ∈ p.2, models.contains d = true →
        ∃ pre suf, res = pre ++ p.1 :: suf ∧ d ∈ pre := by
  intro n
  induction n with
  | zero =>
    intro work out hlen hnd hcov hrank
    have hw : work = [] := List.length_eq_zero.mp (Nat.le_zero.mp hlen)
    subst hw
    exact ⟨out, sortLoop_nil models out, ⟨[], by simp⟩, by simp, by simp⟩
  | succ n ih =>
    intro work out hlen hnd hcov hrank
    by_cases hw : work = []
    · subst hw
      exact ⟨out, sortLoop_nil models out, ⟨[], by simp⟩, by simp, by simp⟩
    · obtain ⟨p₀, hp₀, hmin⟩ := exists_rank_min rank work hw
      have hready : isReady models out p₀.2 = true := by
        rw [isReady, List.all_eq_true]
        intro d hd
        cases hcd : models.contains d
        · simp
        · have hlt := hrank p₀ hp₀ d hd hcd
          rcases hcov d hcd with hdo | hdw
          · simp only [Bool.not_true, Bool.false_or]
            simpa using hdo
          · exfalso
            obtain ⟨q, hq, hqe⟩ := List.mem_map.mp hdw
            have hle := hmin q hq
            rw [hqe] at hle
            omega
      have hchanged : (scanPass models work.reverse [] out false).2.2 = true :=
        scanPass_progress models work.reverse [] out false p₀
          (List.mem_reverse.mpr hp₀) hready
      have hrevperm : ((work.map Prod.fst).reverse).Perm (work.map Prod.fst) :=
        List.reverse_perm _
      have hperm2 : ((scanPass models work.reverse [] out false).2.1 ++
          (scanPass models work.reverse [] out false).1.map Prod.fst).Perm
          (out ++ work.map Prod.fst) := by
        have hperm := scanPass_perm models work.reverse [] out false
        simp only [List.map_nil, List.nil_append, List.map_reverse] at hperm
        exact hperm.trans (List.Perm.append_left out hrevperm)
      have hnd2 : ((scanPass models work.reverse [] out false).2.1 ++
          (scanPass models work.reverse [] out false).1.map Prod.fst).Nodup :=
        hperm2.symm.nodup hnd
      have hndpass : (out ++ (work.reverse).map Prod.fst).Nodup := by
        have : (out ++ work.map Prod.fst).Perm (out ++ (work.reverse).map Prod.fst) := by
          rw [List.map_reverse]
          exact List.Perm.append_left out hrevperm.symm
        exact this.nodup hnd
      have hlen2 := scanPass_length models work.reverse [] out false
      have hgt := scanPass_changed_gt models work.reverse [] out hchanged
      simp only [List.length_reverse, List.length_nil] at hlen2
      obtain ⟨res, heq, ⟨t2, hpre2⟩, hperm3, hord⟩ :=
        ih (scanPass models work.reverse [] out false).1
          (scanPass models work.reverse [] out false).2.1
          (by omega)
          (by
            rw [List.nodup_append] at hnd2 ⊢
            exact hnd2)
          (by
            intro x hx
            have hx2 := hcov x hx
            have hmem : x ∈ out ++ work.map Prod.fst := List.mem_append.mpr hx2
            exact List.mem_append.mp (hperm2.symm.mem_iff.mp hmem))
          (by
            intro p hp d hd hcd
            rcases scanPass_mem_sk models work.reverse [] out false p hp with hc | hc
            · cases hc
            · exact hrank p (List.mem_reverse.mp hc) d hd hcd)
      rw [sortLoop_ne_nil models work out hw, if_pos hchanged]
      refine ⟨res, heq, ?_, hperm3.trans hperm2, ?_⟩
      · obtain ⟨t1, ht1, -⟩ := scanPass_out_src models work.reverse [] out false
        exact ⟨t1 ++ t2, by rw [hpre2, ht1, List.append_assoc]⟩
      · intro p hp d hd hcd
        rcases scanPass_cover models work.reverse [] out false p
            (List.mem_reverse.mpr hp) with hc | hc
        · obtain ⟨pre, suf, hsplit, hdpre⟩ :=
            scanPass_before models work.reverse [] out false hndpass p
              (List.mem_reverse.mpr hp) hc d hd hcd
          exact ⟨pre, suf ++ t2, by rw [hpre2, hsplit]; simp, hdpre⟩
        · exact hord p hc d hd hcd

theorem sortLoop_stuck (models : List MRef) (work : List (MRef × List MRef))
    (out : List MRef) (hw : work ≠ [])
    (hstuck : ∀ p ∈ work, isReady models out p.2 = false) :
    sortLoop models work out = .error (stuckMessage work.reverse) := by
  have hnone := scanPass_none models work.reverse [] out
    (fun p hp => hstuck p (List.mem_reverse.mp hp))
  rw [sortLoop_ne_nil models work out hw, hnone]
  simp

theorem map_fst_modelDependenciesList (registry : List AppConfig) :
    (modelDependenciesList registry).map Prod.fst = consideredModels registry := by
  simp only [modelDependenciesList, consideredModels, List.map_flatMap, List.map_map]
  rfl

theorem get_le_of_split (pre suf : List MRef) (a d : MRef)
    (hnd : (pre ++ a :: suf).Nodup) (hd : d ∈ pre)
    (i j : Fin (pre ++ a :: suf).length)
    (hi : (pre ++ a :: suf).get i = a) (hj : (pre ++ a :: suf).get j = d) :
    (j : Nat) ≤ (i : Nat) := by
  obtain ⟨k, hk⟩ := List.get_of_mem hd
  have hklt : (k : Nat) < pre.length := k.isLt
  have hklt2 : (k : Nat) < (pre ++ a :: suf).length := by
    simp only [List.length_append, List.length_cons]
    omega
  have halt : pre.length < (pre ++ a :: suf).length := by
    simp only [List.length_append, List.length_cons]
    omega
  have hgetk : (pre ++ a :: suf).get ⟨k, hklt2⟩ = d := by
    rw [List.get_eq_getElem]
    rw [List.getElem_append_left hklt]
    rw [← List.get_eq_getElem]
    exact hk
  have hgeta : (pre ++ a :: suf).get ⟨pre.length, halt⟩ = a := by
    rw [List.get_eq_getElem]
    rw [List.getElem_append_right (le_refl pre.length)]
    simp
  have hj2 : j = ⟨k, hklt2⟩ := hnd.get_inj_iff.mp (hj.trans hgetk.symm)
  have hi2 : i = ⟨pre.length, halt⟩ := hnd.get_inj_iff.mp (hi.trans hgeta.symm)
  have hjv : (j : Nat) = (k : Nat) := congrArg Fin.val hj2
  have hiv : (i : Nat) = pre.length := congrArg Fin.val hi2
  omega

/-- C1: for every registry of Models whose derived dependency graph
(after the Actor/Team/User suppression built into the edge derivation)
is acyclic — witnessed by a rank function that strictly decreases along
every dependency edge into the considered model set —
`sort_dependencies` succeeds and returns an ordered sequence containing
every considered Model exactly once, such that for every dependency edge
A to B with B in the considered model set, B's position in the output is
at or before A's position. -/
theorem claim_C1 (registry : List AppConfig) (rank : MRef → Nat)
    (hnd : (consideredModels registry).Nodup)
    (hacyc : ∀ p ∈ modelDependenciesList registry, ∀ d ∈ p.2,
      (consideredModels registry).contains d = true → rank d < rank p.1) :
    ∃ res, sort_dependencies registry = .ok res ∧
      res.Perm (consideredModels registry) ∧
      (∀ x ∈ consideredModels registry, res.count x = 1) ∧
      (∀ p ∈ modelDependenciesList registry, ∀ d ∈ p.2,
        (consideredModels registry).contains d = true →
        ∀ i j : Fin res.length, res.get i = p.1 → res.get j = d →
          (j : Nat) ≤ (i : Nat)) := by
  have hmap := map_fst_modelDependenciesList registry
  have hmaprev : ((modelDependenciesList registry).reverse).map Prod.fst
      = (consideredModels registry).reverse := by
    rw [List.map_reverse, hmap]
  obtain ⟨res, heq, -, hperm, hord⟩ :=
    sortLoop_ok (consideredModels registry) rank
      ((modelDependenciesList registry).reverse).length
      ((modelDependenciesList registry).reverse) []
      (le_refl _)
      (by
        rw [List.nil_append, hmaprev]
        exact List.nodup_reverse.mpr hnd)
      (by
        intro x hx
        refine Or.inr ?_
        rw [hmaprev]
        exact List.mem_reverse.mpr (by simpa using hx))
      (by
        intro p hp d hd hcd
        exact hacyc p (List.mem_reverse.mp hp) d hd hcd)
  have hperm2 : res.Perm (consideredModels registry) := by
    rw [List.nil_append, hmaprev] at hperm
    exact hperm.trans (List.reverse_perm _)
  refine ⟨res, heq, hperm2, ?_, ?_⟩
  · intro x hx
    exact List.count_eq_one_of_mem (hperm2.symm.nodup hnd) (hperm2.mem_iff.mpr hx)
  · intro p hp d hd hcd i j hi hj
    obtain ⟨pre, suf, hsplit, hdpre⟩ :=
      hord p (List.mem_reverse.mpr hp) d hd hcd
    subst hsplit
    exact get_le_of_split pre suf p.1 d (hperm2.symm.nodup hnd) hdpre i j hi hj

/-- Acyclic three-model demonstration registry: `B` has a foreign key to
`A`, `C` an implicit many-to-many relation to `B`; one excluded `auth`
app is present to exercise the app filter. -/
def demoRegistry : List AppConfig :=
  [⟨"auth", [⟨⟨"auth", "Permission"⟩, false, [], [], []⟩]⟩,
   ⟨"sentry",
     [⟨⟨"sentry", "A"⟩, false, [], [], []⟩,
      ⟨⟨"sentry", "B"⟩, false, [], [some ⟨"sentry", "A"⟩, none], []⟩,
      ⟨⟨"sentry", "C"⟩, false, [], [], [(some ⟨"sentry", "B"⟩, false)]⟩]⟩]

/-- Rank function witnessing acyclicity of `demoRegistry`. -/
def demoRank (r : MRef) : Nat :=
  if r.name = "A" then 0 else if r.name = "B" then 1 else 2

theorem claim_C1_witness :
    (consideredModels demoRegistry).Nodup ∧
    (∀ p ∈ modelDependenciesList demoRegistry, ∀ d ∈ p.2,
      (consideredModels demoRegistry).contains d = true → demoRank d < demoRank p.1) ∧
    (∃ res, sort_dependencies demoRegistry = .ok res ∧
      res.Perm (consideredModels demoRegistry) ∧
      (∀ x ∈ consideredModels demoRegistry, res.count x = 1) ∧
      (∀ p ∈ modelDependenciesList demoRegistry, ∀ d ∈ p.2,
        (consideredModels demoRegistry).contains d = true →
        ∀ i j : Fin res.length, res.get i = p.1 → res.get j = d →
          (j : Nat) ≤ (i : Nat))) :=
  ⟨by decide, by decide, claim_C1 demoRegistry demoRank (by decide) (by decide)⟩

/-- C3: for every non-empty work list on which a full scan of the
promotion loop promotes nothing, the resolver fails with an error whose
message names every stuck Model (and hence, since every unmet dependency
of a stuck Model is itself stuck, every unmet dependency), with the
stuck Models sorted by Model class name. -/
theorem claim_C3 (models : List MRef) (work : List (MRef × List MRef))
    (out : List MRef) (hw : work ≠ [])
    (hstuck : ∀ p ∈ work, isReady models out p.2 = false)
    (hcov : ∀ x, models.contains x = true → x ∈ out ∨ x ∈ work.map Prod.fst) :
    ∃ msg, sortLoop models work out = .error msg ∧
      msg = stuckMessage work.reverse ∧
      (∀ p ∈ work, Mentions msg (qualName p.1)) ∧
      (∀ p ∈ work, ∀ d ∈ p.2, models.contains d = true → d ∉ out →
        Mentions msg (qualName d)) ∧
      List.Pairwise (fun a b : MRef × List MRef => a.1.name ≤ b.1.name)
        (sortByName work.reverse) ∧
      (sortByName work.reverse).Perm work.reverse := by
  have hname : ∀ p ∈ work, Mentions (stuckMessage work.reverse) (qualName p.1) := by
    intro p hp
    have hmem : p ∈ sortByName work.reverse :=
      (sortByName_perm work.reverse).mem_iff.mpr (List.mem_reverse.mpr hp)
    have hqm : qualName p.1 ∈ (sortByName work.reverse).map (fun q => qualName q.1) :=
      List.mem_map_of_mem _ hmem
    rw [stuckMessage]
    exact ((mentions_joinWith ", " _ _ hqm).append_left _).append_right _
  refine ⟨stuckMessage work.reverse, sortLoop_stuck models work out hw hstuck, rfl,
    hname, ?_, sortByName_sorted _, sortByName_perm _⟩
  intro p hp d hd hcd hdo
  rcases hcov d hcd with h1 | h2
  · exact absurd h1 hdo
  · obtain ⟨q, hq, hqe⟩ := List.mem_map.mp h2
    rw [← hqe]
    exact hname q hq

/-- Considered-model set of the two-model cycle demonstration. -/
def cycleModels : List MRef := [⟨"sentry", "A"⟩, ⟨"sentry", "B"⟩]

/-- Work list of the two-model cycle demonstration: `A` depends on `B`
and `B` depends on `A`. -/
def cycleWork : List (MRef × List MRef) :=
  [(⟨"sentry", "A"⟩, [⟨"sentry", "B"⟩]), (⟨"sentry", "B"⟩, [⟨"sentry", "A"⟩])]

theorem claim_C3_witness :
    (cycleWork ≠ []) ∧
    (∀ p ∈ cycleWork, isReady cycleModels [] p.2 = false) ∧
    (∃ msg, sortLoop cycleModels cycleWork [] = .error msg ∧
      msg = stuckMessage cycleWork.reverse ∧
      (∀ p ∈ cycleWork, Mentions msg (qualName p.1)) ∧
      (∀ p ∈ cycleWork, ∀ d ∈ p.2, cycleModels.contains d = true →
        d ∉ ([] : List MRef) → Mentions msg (qualName d)) ∧
      List.Pairwise (fun a b : MRef × List MRef => a.1.name ≤ b.1.name)
        (sortByName cycleWork.reverse) ∧
      (sortByName cycleWork.reverse).Perm cycleWork.reverse) :=
  ⟨by decide, by decide,
    claim_C3 cycleModels cycleWork [] (by decide) (by decide)
      (by
        intro x hx
        refine Or.inr ?_
        have hx2 : x ∈ cycleModels := by simpa using hx
        simpa [cycleWork, cycleModels] using hx2)⟩

/-- Modelled from the spec: the edge-derivation rule of the design
section states that a multi-valued reference field contributes an edge
to its target Model only when the relation is implicit, and that
explicitly-modeled join entities must not double-count.  This variant of
`modelDeps` therefore skips many-to-many fields whose `through` flag is
set; it differs from the code, which never consults that flag. -/
def modelDepsSpec (m : ModelDef) : List MRef :=
  (if m.hasNaturalKey then m.natDeps else [])
  ++ m.fkTargets.filterMap (fun r =>
      match r with
      | some rel =>
        if rel ≠ m.ref then
          if m.ref = actorRef ∧ (rel = teamRef ∨ rel = userRef) then none else some rel
        else none
      | none => none)
  ++ m.m2mFields.filterMap (fun rt =>
      match rt.1 with
      | some rel => if rel ≠ m.ref ∧ rt.2 = false then some rel else none
      | none => none)

/-- A model whose only relation is a many-to-many field to another model
mediated by an explicitly declared `through` join entity. -/
def m2mThroughModel : ModelDef :=
  ⟨⟨"sentry", "Team"⟩, false, [], [], [(some ⟨"sentry", "User"⟩, true)]⟩

/-- A model whose only relation is a foreign key to itself. -/
def selfRefModel : ModelDef :=
  ⟨⟨"sentry", "Activity"⟩, false, [], [some ⟨"sentry", "Activity"⟩], []⟩

/-- C4: the code's edge derivation contradicts both the specification
and its own source comment ("M2M relations with explicit through models
don't count as dependencies"): a many-to-many relation mediated by an
explicitly-modeled join entity still contributes a dependency edge,
because the `isinstance(field, ManyToManyField)` filter never checks the
`through` model.  The self-reference half of the rule does hold: a field
whose target equals its source contributes no edge. -/
theorem claim_C4 :
    modelDeps m2mThroughModel = [⟨"sentry", "User"⟩] ∧
    modelDepsSpec m2mThroughModel = [] ∧
    modelDeps selfRefModel = [] ∧
    modelDepsSpec selfRefModel = [] := by
  refine ⟨?_, ?_, ?_, ?_⟩ <;> decide

/-! ## Datetime encoder (`DatetimeSafeDjangoJSONEncoder`, backup.py
lines 150-161)

The encoder computes `obj.astimezone(UTC_0).strftime("%Y-%m-%dT%H:%M:%S.%f")[:-3] + "Z"`.
The `astimezone` conversion is the Python standard library collaborator;
the embedding starts from the UTC field values it produces. -/

/-- A timezone-aware datetime already converted to UTC by
`astimezone(UTC_0)`. -/
structure UTCDatetime where
  year : Nat
  month : Nat
  day : Nat
  hour : Nat
  minute : Nat
  second : Nat
  microsecond : Nat
deriving DecidableEq, Repr

/-- Fixed-width zero-padded decimal rendering (`w` digits), the output
format Python documents for the zero-padded `strftime` directives. -/
def natToPadded (w n : Nat) : String :=
  ⟨(List.range w).reverse.map (fun i => Nat.digitChar (n / 10 ^ i % 10))⟩

/-- Embedding of `obj.strftime("%Y-%m-%dT%H:%M:%S.%f")` on a UTC
datetime: `%Y` renders four digits, `%m %d %H %M %S` two digits each and
`%f` six digits, all zero-padded. -/
def pyStrftimeIso (d : UTCDatetime) : String :=
  natToPadded 4 d.year ++ "-" ++ natToPadded 2 d.month ++ "-" ++ natToPadded 2 d.day
    ++ "T" ++ natToPadded 2 d.hour ++ ":" ++ natToPadded 2 d.minute ++ ":"
    ++ natToPadded 2 d.second ++ "." ++ natToPadded 6 d.microsecond

/-- Python string slice `s[:-3]`: drop the last three characters. -/
def dropLast3 (s : String) : String := ⟨s.data.dropLast.dropLast.dropLast⟩

/-- Embedding of `DatetimeSafeDjangoJSONEncoder.default` on a datetime
(backup.py line 160): format with microseconds, drop the final three
characters, append `Z`. -/
def encodeDatetime (d : UTCDatetime) : String := dropLast3 (pyStrftimeIso d) ++ "Z"

/-- Modelled from the spec: the round-trip-stable textual form
`YYYY-MM-DDTHH:MM:SS.mmm` plus `Z`, where the millisecond field is the
microsecond count truncated to millisecond precision. -/
def specDatetimeForm (d : UTCDatetime) : String :=
  natToPadded 4 d.year ++ "-" ++ natToPadded 2 d.month ++ "-" ++ natToPadded 2 d.day
    ++ "T" ++ natToPadded 2 d.hour ++ ":" ++ natToPadded 2 d.minute ++ ":"
    ++ natToPadded 2 d.second ++ "." ++ natToPadded 3 (d.microsecond / 1000) ++ "Z"

theorem dropLast3_three (l : List Char) (a b c : Char) :
    (l ++ [a, b, c]).dropLast.dropLast.dropLast = l := by
  have e1 : l ++ [a, b, c] = (l ++ [a, b]) ++ [c] := by simp
  have e2 : l ++ [a, b] = (l ++ [a]) ++ [b] := by simp
  rw [e1, List.dropLast_concat, e2, List.dropLast_concat, List.dropLast_concat]

theorem dropLast3_append6 (s : String) (us : Nat) :
    dropLast3 (s ++ natToPadded 6 us) = s ++ natToPadded 3 (us / 1000) := by
  have h6 : (List.range 6).reverse = [5, 4, 3, 2, 1, 0] := rfl
  have h3 : (List.range 3).reverse = [2, 1, 0] := rfl
  apply String.ext
  simp only [dropLast3, natToPadded, String.data_append, h6, h3, List.map_cons,
    List.map_nil]
  have hassoc : s.data ++
      [Nat.digitChar (us / 10 ^ 5 % 10), Nat.digitChar (us / 10 ^ 4 % 10),
       Nat.digitChar (us / 10 ^ 3 % 10), Nat.digitChar (us / 10 ^ 2 % 10),
       Nat.digitChar (us / 10 ^ 1 % 10), Nat.digitChar (us / 10 ^ 0 % 10)]
      = (s.data ++
        [Nat.digitChar (us / 10 ^ 5 % 10), Nat.digitChar (us / 10 ^ 4 % 10),
         Nat.digitChar (us / 10 ^ 3 % 10)]) ++
        [Nat.digitChar (us / 10 ^ 2 % 10), Nat.digitChar (us / 10 ^ 1 % 10),
         Nat.digitChar (us / 10 ^ 0 % 10)] := by
    simp
  rw [hassoc, dropLast3_three]
  have hd2 : us / 1000 / 10 ^ 2 % 10 = us / 10 ^ 5 % 10 := by
    rw [Nat.div_div_eq_div_mul]; norm_num
  have hd1 : us / 1000 / 10 ^ 1 % 10 = us / 10 ^ 4 % 10 := by
    rw [Nat.div_div_eq_div_mul]; norm_num
  have hd0 : us / 1000 / 10 ^ 0 % 10 = us / 10 ^ 3 % 10 := by
    rw [Nat.div_div_eq_div_mul]; norm_num
  rw [hd2, hd1, hd0]

/-- C5: for every datetime value (in its UTC form), the export encoder
renders exactly the textual form `YYYY-MM-DDTHH:MM:SS.mmm` followed by
`Z`, the millisecond field being the microsecond count truncated to
millisecond precision; and when the sub-second component is exactly
zero the rendering still ends in `.000Z` (the `.000` is never
truncated). -/
theorem claim_C5 (d : UTCDatetime) :
    encodeDatetime d = specDatetimeForm d ∧
    ∃ p, encodeDatetime { d with microsecond := 0 } = p ++ ".000Z" := by
  have hform : ∀ e : UTCDatetime, encodeDatetime e = specDatetimeForm e := by
    intro e
    rw [encodeDatetime, pyStrftimeIso, dropLast3_append6, specDatetimeForm]
  refine ⟨hform d, ?_⟩
  refine ⟨natToPadded 4 d.year ++ "-" ++ natToPadded 2 d.month ++ "-"
    ++ natToPadded 2 d.day ++ "T" ++ natToPadded 2 d.hour ++ ":"
    ++ natToPadded 2 d.minute ++ ":" ++ natToPadded 2 d.second, ?_⟩
  rw [hform { d with microsecond := 0 }, specDatetimeForm]
  apply String.ext
  have h0 : (natToPadded 3 0).data = ['0', '0', '0'] := by decide
  simp [String.data_append, h0]

/-! ## Import pipeline (`import_`, backup.py lines 19-51)

The deserialized objects, the database and the `obj.save()` /
`transaction.atomic` collaborators are abstracted: `σ` is the database
state, `save` the upsert capability (failing with an integrity error
`ε`), and the transaction contract of the storage collaborator is
all-or-nothing: the state produced by the `with transaction.atomic`
block is kept only if no write raised.  The post-commit primary-key
sequence reset (backup.py lines 43-51) is outside the modelled
fragment. -/

/-- The loop body of `import_` (backup.py lines 28-30): deserialize in
document order, skip objects of excluded apps, save the rest, stopping
at the first integrity error. -/
def importAttempt {σ α ε : Type} (save : σ → α → Except ε σ) (appOf : α → String)
    (db : σ) : List α → Except ε σ
  | [] => .ok db
  | o :: rest =>
    if appOf o ∈ EXCLUDED_APPS then importAttempt save appOf db rest
    else
      match save db o with
      | .ok db2 => importAttempt save appOf db2 rest
      | .error e => .error e

/-- The diagnostic printed to stderr on an `IntegrityError`
(backup.py line 36). -/
def importWarningText : String :=
  ">> Are you restoring from a backup of the same version of Sentry?\n>> Are you restoring onto a clean database?\n>> If so then this IntegrityError might be our fault, you can open an issue here:\n>> https://github.com/getsentry/sentry/issues/new/choose"

/-- Embedding of the `import_` command (backup.py lines 22-41): run the
whole loop inside one transaction; on success commit the produced state,
on an integrity error roll back to the initial state, emit the warning
on the error channel and re-raise.  The result is (database state,
stderr lines, re-raised error). -/
def import_ {σ α ε : Type} (save : σ → α → Except ε σ) (appOf : α → String)
    (db : σ) (objs : List α) : σ × List String × Option ε :=
  match importAttempt save appOf db objs with
  | .ok db2 => (db2, [], none)
  | .error e => (db, [importWarningText], some e)

/-- C2: the import performs all writes inside one transaction scoped to
the whole import; whenever some write raises an integrity violation the
entire transaction is aborted, so the resulting database state equals
the initial one (no instance from the document is persisted), a
diagnostic suggesting the two most common causes (a version mismatch and
a non-clean destination database) is emitted to the error channel, and
the integrity error is re-raised to the caller. -/
theorem claim_C2 {σ α ε : Type} (save : σ → α → Except ε σ) (appOf : α → String)
    (db : σ) (objs : List α) (e : ε)
    (hfail : importAttempt save appOf db objs = .error e) :
    import_ save appOf db objs = (db, [importWarningText], some e) ∧
    Mentions importWarningText "same version of Sentry" ∧
    Mentions importWarningText "clean database" := by
  refine ⟨?_, by decide, by decide⟩
  rw [import_, hfail]

/-- Demonstration database for the C2 witness: a list of written keys;
writing the key `13` violates integrity. -/
def demoSave (db : List Nat) (o : Nat × String) : Except String (List Nat) :=
  if o.1 = 13 then .error "duplicate key" else .ok (db ++ [o.1])

/-- Demonstration document for the C2 witness: the second non-excluded
object fails, the first would have been written. -/
def demoObjs : List (Nat × String) :=
  [(1, "sentry"), (2, "auth"), (13, "sentry"), (4, "sentry")]

theorem claim_C2_witness :
    importAttempt demoSave Prod.snd [] demoObjs = .error "duplicate key" ∧
    import_ demoSave Prod.snd [] demoObjs
      = ([], [importWarningText], some "duplicate key") ∧
    Mentions importWarningText "same version of Sentry" ∧
    Mentions importWarningText "clean database" :=
  ⟨by rfl,
    (claim_C2 demoSave Prod.snd [] demoObjs "duplicate key" (by rfl)).1,
    (claim_C2 demoSave Prod.snd [] demoObjs "duplicate key" (by rfl)).2.1,
    (claim_C2 demoSave Prod.snd [] demoObjs "duplicate key" (by rfl)).2.2⟩

/-! ## Comparator framework (`sentry.backup.comparators`)

The comparator implementation itself is not part of the provided source
tree; only its test suite (`tests/sentry/backup/test_comparators.py`)
is.  The definitions below are therefore modelled from the
specification's comparator-framework section, pinned on every point the
tests exercise.  JSON instances carry string and string-list fields (the
shapes the comparators own) plus the reserved scrub side channel. -/

/-- A JSON field value owned by a comparator: a scalar string or an
ordered list of strings. -/
inductive JsonVal where
  | str (s : String)
  | list (xs : List String)
deriving DecidableEq, Repr

/-- Stable addressing tuple (Model name, primary key) labelling every
Finding. -/
structure InstanceID where
  model : String
  pk : Int
deriving DecidableEq, Repr

/-- Immutable difference report: instance address (the `on` attribute
of the Python Finding), comparator identifier, human-readable
reason. -/
structure Finding where
  onId : InstanceID
  kind : String
  reason : String
deriving DecidableEq, Repr

/-- One serialized instance: model name, primary key, field payload and
the reserved scrub record (empty when the `scrubbed` key is absent). -/
structure MInst where
  model : String
  pk : Int
  fields : List (String × JsonVal)
  scrubbed : List (String × List String)
deriving DecidableEq, Repr

/-- Field lookup in an instance payload. -/
def getField (inst : MInst) (f : String) : Option JsonVal :=
  inst.fields.lookup f

/-- Modelled from the spec: a comparator is a configuration object
naming the fields it owns, with its identifier and its obfuscation
transform (one function for scalar values, one for list values). -/
structure Comparator where
  kind : String
  fields : List String
  truncOne : String → String
  truncList : List String → List String

/-- Obfuscation of one field value: a scalar is obfuscated into a
one-element sequence, a list element-wise by the list transform. -/
def truncateVal (cmp : Comparator) : JsonVal → List String
  | .str s => [cmp.truncOne s]
  | .list xs => cmp.truncList xs

/-- Modelled from the spec: the existence Finding names the side
("left"/"right") that is missing the field, and the field itself. -/
def reasonMissing (side f : String) : String :=
  "the " ++ side ++ " side of the instance was missing the field " ++ f

/-- Modelled from the spec: a compare Finding shows both values already
passed through the obfuscation transform, never the raw values. -/
def mismatchReason (cmp : Comparator) (f : String) (lv rv : JsonVal) : String :=
  "the left value (" ++ joinWith ", " (truncateVal cmp lv) ++ ") of the field "
    ++ f ++ " was not equal to the right value ("
    ++ joinWith ", " (truncateVal cmp rv) ++ ")"

namespace Cmp

/-- Modelled from the spec: `existence` checks that each owned field is
present on both sides or absent on both sides; exactly one Finding per
field present on exactly one side, whose reason states which side is
missing the field. -/
def existence (cmp : Comparator) (id : InstanceID) (l r : MInst) : List Finding :=
  cmp.fields.filterMap (fun f =>
    match getField l f, getField r f with
    | none, none => none
    | some _, some _ => none
    | none, some _ => some ⟨id, cmp.kind, reasonMissing "left" f⟩
    | some _, none => some ⟨id, cmp.kind, reasonMissing "right" f⟩)

/-- Modelled from the spec: `compare` emits one Finding per owned field
whose two present values differ, the reason carrying both values in
obfuscated form. -/
def compare (cmp : Comparator) (id : InstanceID) (l r : MInst) : List Finding :=
  cmp.fields.filterMap (fun f =>
    match getField l f, getField r f with
    | some lv, some rv =>
      if lv = rv then none else some ⟨id, cmp.kind, mismatchReason cmp f lv rv⟩
    | _, _ => none)

end Cmp

/-- Python `str.split(sep)` on a single-character separator, at the
character-list level (also the embedding of `exclude.split(",")` in the
export command). -/
def splitOnChar (sep : Char) : List Char → List (List Char)
  | [] => [[]]
  | c :: rest =>
    if c = sep then [] :: splitOnChar sep rest
    else
      match splitOnChar sep rest with
      | [] => [[c]]
      | g :: gs => (c :: g) :: gs

/-- Modelled from the spec: the email obfuscation transform keeps the
first character of the local part and the trailing characters of the
domain, masking everything else with literal ellipsis markers.  The
spec's own examples (alpha@example.com becomes a...@...le.com,
testing.com keeps ng.com) fix the kept domain suffix at six
characters. -/
def emailTruncateOne (s : String) : String :=
  match splitOnChar '@' s.data with
  | [u, d] => (⟨u.take 1⟩ : String) ++ "...@..." ++ ⟨d.drop (d.length - 6)⟩
  | _ => s

/-- Modelled from the spec's claim wording alone: an email obfuscation
that keeps only the last three characters of the domain.  Kept for
comparison with `emailTruncateOne`; the test suite contradicts it. -/
def emailTruncateThree (s : String) : String :=
  match splitOnChar '@' s.data with
  | [u, d] => (⟨u.take 1⟩ : String) ++ "...@..." ++ ⟨d.drop (d.length - 3)⟩
  | _ => s

/-- Modelled from the spec: the hash obfuscation transform keeps a short
prefix and suffix of a scalar hash, the kept amount depending on how
much material the hash has (the spec's examples fix three characters on
each side for a sixteen-character hash, one on each side for an
eight-character hash, and full masking below that). -/
def hashTruncateOne (s : String) : String :=
  if s.length ≥ 16 then
    (⟨s.data.take 3⟩ : String) ++ "..." ++ ⟨s.data.drop (s.data.length - 3)⟩
  else if s.length ≥ 8 then
    (⟨s.data.take 1⟩ : String) ++ "..." ++ ⟨s.data.drop (s.data.length - 1)⟩
  else "..."

/-- Modelled from the spec: in a hash list the first element is
partially shown and every subsequent element collapses to the literal
ellipsis marker rather than repeating the full obfuscation. -/
def hashTruncList : List String → List String
  | [] => []
  | x :: rest => hashTruncateOne x :: rest.map (fun _ => "...")

/-- Modelled from the spec: the timestamp comparator configuration (its
compare semantics are not needed by the claims below; the identity
transform stands in for its unused obfuscation slot). -/
def DateUpdatedComparator (f : String) : Comparator :=
  ⟨"DateUpdatedComparator", [f], id, id⟩

/-- Modelled from the spec: the email-obfuscating comparator owns one
scalar field and one list field and obfuscates element-wise. -/
def EmailObfuscatingComparator (f1 f2 : String) : Comparator :=
  ⟨"EmailObfuscatingComparator", [f1, f2], emailTruncateOne,
    fun xs => xs.map emailTruncateOne⟩

/-- Modelled from the spec: the hash-obfuscating comparator owns one
scalar field and one list field, with the collapsing list transform. -/
def HashObfuscatingComparator (f1 f2 : String) : Comparator :=
  ⟨"HashObfuscatingComparator", [f1, f2], hashTruncateOne, hashTruncList⟩

/-- The instance of the existence tests with `my_date_field` set. -/
def presentInst : MInst :=
  ⟨"test", 1, [("my_date_field", .str "2023-06-22T23:12:34.567Z")], []⟩

/-- The instance of the existence tests with an empty field payload. -/
def missingInst : MInst := ⟨"test", 1, [], []⟩

/-- C6 counterexample: for the field present only on the right side of
instance ("test", 1), the single existence Finding's reason does not
contain "right" — it names the missing side, "left" (as the test suite
asserts) — so the claim's example is false at this input. -/
theorem claim_C6_counterexample :
    (Cmp.existence (DateUpdatedComparator "my_date_field") ⟨"test", 1⟩
        missingInst presentInst).length = 1 ∧
    ∀ fi ∈ Cmp.existence (DateUpdatedComparator "my_date_field") ⟨"test", 1⟩
        missingInst presentInst,
      ¬ Mentions fi.reason "right" ∧ Mentions fi.reason "left" ∧
        Mentions fi.reason "my_date_field" := by
  refine ⟨by decide, by decide⟩

/-- C6 (amended): for every single-field comparator, `existence`
returns no Finding when the owned field is absent on both sides, and
returns exactly one Finding when exactly one side has the field, with
kind equal to the comparator identifier and a reason that states which
side ("left"/"right") is missing the field and references the field
name; in particular, for a field present only on the right side the
single Finding's reason contains "left" (the missing side), and for a
field present only on the left side it contains "right". -/
theorem claim_C6 (cmp : Comparator) (f : String) (id : InstanceID) (l r : MInst)
    (hf : cmp.fields = [f]) :
    (getField l f = none → getField r f = none →
      Cmp.existence cmp id l r = []) ∧
    (∀ v, getField l f = none → getField r f = some v →
      Cmp.existence cmp id l r = [⟨id, cmp.kind, reasonMissing "left" f⟩] ∧
      Mentions (reasonMissing "left" f) "left" ∧
      Mentions (reasonMissing "left" f) f) ∧
    (∀ v, getField l f = some v → getField r f = none →
      Cmp.existence cmp id l r = [⟨id, cmp.kind, reasonMissing "right" f⟩] ∧
      Mentions (reasonMissing "right" f) "right" ∧
      Mentions (reasonMissing "right" f) f) := by
  have hm : ∀ side : String, Mentions (reasonMissing side f) side := by
    intro side
    exact (((mentions_refl side).append_left "the ").append_right
      " side of the instance was missing the field ").append_right f
  have hmf : ∀ side : String, Mentions (reasonMissing side f) f := by
    intro side
    exact (mentions_refl f).append_left
      ("the " ++ side ++ " side of the instance was missing the field ")
  refine ⟨?_, ?_, ?_⟩
  · intro h1 h2
    rw [Cmp.existence, hf]
    simp [h1, h2]
  · intro v h1 h2
    refine ⟨?_, hm "left", hmf "left"⟩
    rw [Cmp.existence, hf]
    simp [h1, h2]
  · intro v h1 h2
    refine ⟨?_, hm "right", hmf "right"⟩
    rw [Cmp.existence, hf]
    simp [h1, h2]

theorem claim_C6_witness :
    Cmp.existence (DateUpdatedComparator "my_date_field") ⟨"test", 1⟩
        presentInst missingInst
      = [⟨⟨"test", 1⟩, "DateUpdatedComparator", reasonMissing "right" "my_date_field"⟩] ∧
    Mentions (reasonMissing "right" "my_date_field") "right" ∧
    Mentions (reasonMissing "right" "my_date_field") "my_date_field" :=
  (claim_C6 (DateUpdatedComparator "my_date_field") "my_date_field" ⟨"test", 1⟩
    presentInst missingInst rfl).2.2 (.str "2023-06-22T23:12:34.567Z") rfl rfl

/-- Left instance of the email comparator mismatch tests. -/
def emailLeft : MInst :=
  ⟨"test", 1,
    [("one_email", .str "alpha@example.com"),
     ("many_emails", .list ["bravo@example.com", "charlie@example.com"])], []⟩

/-- Right instance of the email comparator mismatch tests. -/
def emailRight : MInst :=
  ⟨"test", 1,
    [("one_email", .str "alice@testing.com"),
     ("many_emails", .list ["brian@testing.com", "charlie@example.com"])], []⟩

/-- C7 counterexample: the obfuscation the claim describes (keep the
last three characters of the domain) would render alpha@example.com as
a...@...com, but the Finding the tests pin down contains a...@...le.com
and no Finding of the run contains a...@...com — the claim's stated
transform is false at this input. -/
theorem claim_C7_counterexample :
    emailTruncateThree "alpha@example.com" = "a...@...com" ∧
    emailTruncateOne "alpha@example.com" = "a...@...le.com" ∧
    (Cmp.compare (EmailObfuscatingComparator "one_email" "many_emails") ⟨"test", 1⟩
        emailLeft emailRight).length = 2 ∧
    (∀ fi ∈ Cmp.compare (EmailObfuscatingComparator "one_email" "many_emails")
        ⟨"test", 1⟩ emailLeft emailRight, ¬ Mentions fi.reason "a...@...com") ∧
    (∃ fi ∈ Cmp.compare (EmailObfuscatingComparator "one_email" "many_emails")
        ⟨"test", 1⟩ emailLeft emailRight, Mentions fi.reason "a...@...le.com") := by
  refine ⟨by decide, by decide, by decide, by decide, by decide⟩

/-- C7 (amended): for instances with mismatching email fields the
email-obfuscating comparator emits one Finding per mismatching field
whose reason contains both values in obfuscated form — first character
of the local part kept, last six characters of the domain kept (as the
examples a...@...le.com / a...@...ng.com fix), everything else masked
with a literal ellipsis marker — and the raw values never appear in any
Finding; the scalar mismatch alpha@example.com vs alice@testing.com
yields a Finding whose reason contains a...@...le.com and
a...@...ng.com, while the equal list position contributes no Finding of
its own (exactly one Finding per mismatching field, two in total). -/
theorem claim_C7 (id : InstanceID) (l r : MInst) (v w : String)
    (hl : getField l "one_email" = some (.str v))
    (hr : getField r "one_email" = some (.str w))
    (hne : v ≠ w) :
    (∃ fi ∈ Cmp.compare (EmailObfuscatingComparator "one_email" "many_emails") id l r,
      fi.onId = id ∧ fi.kind = "EmailObfuscatingComparator" ∧
      Mentions fi.reason (emailTruncateOne v) ∧
      Mentions fi.reason (emailTruncateOne w)) ∧
    (∀ fi ∈ Cmp.compare (EmailObfuscatingComparator "one_email" "many_emails")
        ⟨"test", 1⟩ emailLeft emailRight,
      ¬ Mentions fi.reason "alpha@example.com" ∧
      ¬ Mentions fi.reason "alice@testing.com" ∧
      ¬ Mentions fi.reason "bravo@example.com" ∧
      ¬ Mentions fi.reason "brian@testing.com" ∧
      ¬ Mentions fi.reason "charlie@example.com") ∧
    (∃ fi ∈ Cmp.compare (EmailObfuscatingComparator "one_email" "many_emails")
        ⟨"test", 1⟩ emailLeft emailRight,
      Mentions fi.reason "a...@...le.com" ∧ Mentions fi.reason "a...@...ng.com") ∧
    (Cmp.compare (EmailObfuscatingComparator "one_email" "many_emails")
        ⟨"test", 1⟩ emailLeft emailRight).length = 2 := by
  refine ⟨?_, by decide, by decide, by decide⟩
  refine ⟨⟨id, "EmailObfuscatingComparator",
    mismatchReason (EmailObfuscatingComparator "one_email" "many_emails")
      "one_email" (.str v) (.str w)⟩, ?_, rfl, rfl, ?_, ?_⟩
  · rw [Cmp.compare]
    apply List.mem_filterMap.mpr
    refine ⟨"one_email", by simp [EmailObfuscatingComparator], ?_⟩
    rw [hl, hr]
    simp [hne, EmailObfuscatingComparator]
  · show Mentions ("the left value (" ++ emailTruncateOne v ++ ") of the field "
      ++ "one_email" ++ " was not equal to the right value ("
      ++ emailTruncateOne w ++ ")") (emailTruncateOne v)
    exact (((((mentions_refl (emailTruncateOne v)).append_left
      "the left value (").append_right ") of the field ").append_right
      "one_email").append_right " was not equal to the right value (").append_right
      (emailTruncateOne w) |>.append_right ")"
  · show Mentions ("the left value (" ++ emailTruncateOne v ++ ") of the field "
      ++ "one_email" ++ " was not equal to the right value ("
      ++ emailTruncateOne w ++ ")") (emailTruncateOne w)
    exact ((mentions_refl (emailTruncateOne w)).append_left
      ("the left value (" ++ emailTruncateOne v ++ ") of the field "
        ++ "one_email" ++ " was not equal to the right value (")).append_right ")"

theorem claim_C7_witness :
    ∃ fi ∈ Cmp.compare (EmailObfuscatingComparator "one_email" "many_emails")
        ⟨"test", 1⟩ emailLeft emailRight,
      fi.onId = ⟨"test", 1⟩ ∧ fi.kind = "EmailObfuscatingComparator" ∧
      Mentions fi.reason (emailTruncateOne "alpha@example.com") ∧
      Mentions fi.reason (emailTruncateOne "alice@testing.com") :=
  (claim_C7 ⟨"test", 1⟩ emailLeft emailRight "alpha@example.com" "alice@testing.com"
    rfl rfl (by decide)).1

/-- Python dict assignment on an association list: replace the value of
an existing key in place, or append a new entry at the end. -/
def upsert (k : String) (v : List String) :
    List (String × List String) → List (String × List String)
  | [] => [(k, v)]
  | (k2, v2) :: rest =>
    if k2 = k then (k, v) :: rest else (k2, v2) :: upsert k v rest

/-- Apply a sequence of scrub-record writes in order. -/
def applyAll (ws m : List (String × List String)) : List (String × List String) :=
  ws.foldl (fun acc kv => upsert kv.1 kv.2 acc) m

/-- The reserved scrub-record key of one owned field:
`"<ComparatorKind>::<field>"`. -/
def scrubKey (cmp : Comparator) (f : String) : String := cmp.kind ++ "::" ++ f

/-- The scrub-record writes produced for a given field list: one write
per owned field present on the instance, the value being the obfuscated
sequence. -/
def fieldWrites (cmp : Comparator) (inst : MInst) (fs : List String) :
    List (String × List String) :=
  fs.filterMap (fun f =>
    (getField inst f).map (fun v => (scrubKey cmp f, truncateVal cmp v)))

/-- Modelled from the spec: `scrub` stores, for each owned field, the
obfuscated value sequence under the reserved scrub key, leaving the
original fields untouched. -/
def Cmp.scrubOne (cmp : Comparator) (inst : MInst) : MInst :=
  { inst with scrubbed := applyAll (fieldWrites cmp inst cmp.fields) inst.scrubbed }

/-- Modelled from the spec: `scrub` redacts both snapshots of the
pair. -/
def Cmp.scrub (cmp : Comparator) (l r : MInst) : MInst × MInst :=
  (Cmp.scrubOne cmp l, Cmp.scrubOne cmp r)

/-- Left instance of the hash comparator tests. -/
def hashLeft : MInst :=
  ⟨"test", 1,
    [("one_hash", .str "1239fe0ab0afc39b"),
     ("many_hashes", .list ["190dae4e", "1234"])], []⟩

/-- Right instance of the hash comparator tests. -/
def hashRight : MInst :=
  ⟨"test", 1,
    [("one_hash", .str "1249fe0ab0afc39c"),
     ("many_hashes", .list ["290dae4f", "1234"])], []⟩

/-- C8: the hash-obfuscating transform keeps a short prefix and suffix
of a scalar hash (1239fe0ab0afc39b becomes 123...39b); in a list the
first element is partially shown (190dae4e becomes 1...e) and every
subsequent element collapses to the literal "..." marker, so scrubbing
the many_hashes list of the test instance records the sequence 1...e,
"..." — and the compare run on the mismatching pair reports the
obfuscated forms on both sides. -/
theorem claim_C8 :
    hashTruncateOne "1239fe0ab0afc39b" = "123...39b" ∧
    hashTruncateOne "190dae4e" = "1...e" ∧
    (∀ (x : String) (xs : List String),
      hashTruncList (x :: xs) = hashTruncateOne x :: xs.map (fun _ => "...")) ∧
    hashTruncList ["190dae4e", "1234"] = ["1...e", "..."] ∧
    (Cmp.scrubOne (HashObfuscatingComparator "one_hash" "many_hashes") hashLeft).scrubbed
      = [("HashObfuscatingComparator::one_hash", ["123...39b"]),
         ("HashObfuscatingComparator::many_hashes", ["1...e", "..."])] ∧
    (Cmp.scrubOne (HashObfuscatingComparator "one_hash" "many_hashes") hashRight).scrubbed
      = [("HashObfuscatingComparator::one_hash", ["124...39c"]),
         ("HashObfuscatingComparator::many_hashes", ["2...f", "..."])] ∧
    (∃ fi ∈ Cmp.compare (HashObfuscatingComparator "one_hash" "many_hashes")
        ⟨"test", 1⟩ hashLeft hashRight,
      Mentions fi.reason "123...39b" ∧ Mentions fi.reason "124...39c") ∧
    (∃ fi ∈ Cmp.compare (HashObfuscatingComparator "one_hash" "many_hashes")
        ⟨"test", 1⟩ hashLeft hashRight,
      Mentions fi.reason "1...e" ∧ Mentions fi.reason "2...f") := by
  refine ⟨by decide, by decide, fun x xs => rfl, by decide, by decide, by decide,
    by decide, by decide⟩

theorem applyAll_cons (p : String × List String) (rest m : List (String × List String)) :
    applyAll (p :: rest) m = applyAll rest (upsert p.1 p.2 m) := rfl

theorem upsert_of_firstEntry (k : String) (v : List String) :
    ∀ pre suf, k ∉ pre.map Prod.fst →
      upsert k v (pre ++ (k, v) :: suf) = pre ++ (k, v) :: suf := by
  intro pre
  induction pre with
  | nil =>
    intro suf h
    simp [upsert]
  | cons p pre ih =>
    intro suf h
    obtain ⟨k2, v2⟩ := p
    have hk2 : k2 ≠ k := by
      intro he
      exact h (by simp [he])
    simp only [List.cons_append, upsert, if_neg hk2]
    exact congrArg (fun t => (k2, v2) :: t) (ih suf (fun hm => h (by simp [hm])))

theorem firstEntry_upsert_self (k : String) (v : List String) :
    ∀ m, ∃ pre suf,
      upsert k v m = pre ++ (k, v) :: suf ∧ k ∉ pre.map Prod.fst := by
  intro m
  induction m with
  | nil => exact ⟨[], [], by simp [upsert], by simp⟩
  | cons p rest ih =>
    obtain ⟨k2, v2⟩ := p
    by_cases h : k2 = k
    · exact ⟨[], rest, by simp [upsert, h], by simp⟩
    · obtain ⟨pre, suf, he, hk⟩ := ih
      refine ⟨(k2, v2) :: pre, suf, by simp [upsert, h, he], ?_⟩
      intro hmem
      simp only [List.map_cons, List.mem_cons] at hmem
      rcases hmem with he2 | hm
      · exact h he2.symm
      · exact hk hm

theorem firstEntry_upsert_other (k : String) (v : List String) (k2 : String)
    (v2 : List String) (hne : k2 ≠ k) :
    ∀ pre suf, k ∉ pre.map Prod.fst →
      ∃ pre2 suf2, upsert k2 v2 (pre ++ (k, v) :: suf) = pre2 ++ (k, v) :: suf2 ∧
        k ∉ pre2.map Prod.fst := by
  intro pre
  induction pre with
  | nil =>
    intro suf h
    refine ⟨[], upsert k2 v2 suf, ?_, by simp⟩
    simp only [List.nil_append, upsert]
    rw [if_neg (show ¬k = k2 from fun he => hne he.symm)]
  | cons p pre ih =>
    intro suf h
    obtain ⟨k3, v3⟩ := p
    have hk3 : k ≠ k3 := fun he => h (by simp [he])
    by_cases h32 : k3 = k2
    · refine ⟨(k2, v2) :: pre, suf, ?_, ?_⟩
      · simp [upsert, h32]
      · intro hmem
        simp only [List.map_cons, List.mem_cons] at hmem
        rcases hmem with he | hm
        · exact hne he.symm
        · exact h (by simp [hm])
    · obtain ⟨pre2, suf2, he2, hk2m⟩ := ih suf (fun hm => h (by simp [hm]))
      refine ⟨(k3, v3) :: pre2, suf2, ?_, ?_⟩
      · simp only [List.cons_append, upsert, if_neg h32]
        exact congrArg (fun t => (k3, v3) :: t) he2
      · intro hmem
        simp only [List.map_cons, List.mem_cons] at hmem
        rcases hmem with he | hm
        · exact hk3 he
        · exact hk2m hm

theorem firstEntry_applyAll (k : String) (v : List String) :
    ∀ ws m, k ∉ ws.map Prod.fst →
      (∃ pre suf, m = pre ++ (k, v) :: suf ∧ k ∉ pre.map Prod.fst) →
      ∃ pre suf, applyAll ws m = pre ++ (k, v) :: suf ∧ k ∉ pre.map Prod.fst := by
  intro ws
  induction ws with
  | nil =>
    intro m h hf
    simpa [applyAll] using hf
  | cons p rest ih =>
    intro m h hf
    obtain ⟨k2, v2⟩ := p
    have hk2 : k2 ≠ k := fun he => h (by simp [he])
    obtain ⟨pre, suf, hm, hkp⟩ := hf
    subst hm
    rw [applyAll_cons]
    exact ih (upsert k2 v2 (pre ++ (k, v) :: suf)) (fun hm2 => h (by simp [hm2]))
      (firstEntry_upsert_other k v k2 v2 hk2 pre suf hkp)

theorem applyAll_idem (ws : List (String × List String))
    (hnd : (ws.map Prod.fst).Nodup) :
    ∀ m, applyAll ws (applyAll ws m) = applyAll ws m := by
  induction ws with
  | nil => intro m; rfl
  | cons p rest ih =>
    intro m
    obtain ⟨k, v⟩ := p
    simp only [List.map_cons, List.nodup_cons] at hnd
    rw [applyAll_cons, applyAll_cons]
    obtain ⟨pre, suf, he, hk⟩ :=
      firstEntry_applyAll k v rest (upsert k v m) hnd.1 (firstEntry_upsert_self k v m)
    rw [he, upsert_of_firstEntry k v pre suf hk, ← he]
    exact ih hnd.2 (upsert k v m)

theorem mem_upsert (k : String) (v : List String) (k2 : String) (v2 : List String) :
    ∀ m, (k, v) ∈ upsert k2 v2 m → (k, v) = (k2, v2) ∨ (k, v) ∈ m := by
  intro m
  induction m with
  | nil =>
    intro h
    exact Or.inl (by simpa [upsert] using h)
  | cons p rest ih =>
    obtain ⟨k3, v3⟩ := p
    intro h
    by_cases h32 : k3 = k2
    · simp only [upsert, if_pos h32] at h
      rcases List.mem_cons.mp h with he | hm
      · exact Or.inl he
      · exact Or.inr (List.mem_cons_of_mem _ hm)
    · simp only [upsert, if_neg h32] at h
      rcases List.mem_cons.mp h with he | hm
      · exact Or.inr (by simp [he])
      · rcases ih hm with h1 | h2
        · exact Or.inl h1
        · exact Or.inr (List.mem_cons_of_mem _ h2)

theorem mem_applyAll (k : String) (v : List String) :
    ∀ ws m, (k, v) ∈ applyAll ws m → (k, v) ∈ m ∨ (k, v) ∈ ws := by
  intro ws
  induction ws with
  | nil =>
    intro m h
    exact Or.inl (by simpa [applyAll] using h)
  | cons p rest ih =>
    intro m h
    rw [applyAll_cons] at h
    rcases ih (upsert p.1 p.2 m) h with h1 | h2
    · rcases mem_upsert k v p.1 p.2 m h1 with he | hm
      · right
        rw [he]
        simp
      · exact Or.inl hm
    · exact Or.inr (List.mem_cons_of_mem _ h2)

theorem mem_fieldWrites (cmp : Comparator) (inst : MInst) (k : String)
    (v : List String) (fs : List String)
    (h : (k, v) ∈ fieldWrites cmp inst fs) :
    ∃ f ∈ fs, k = scrubKey cmp f ∧
      ∃ w, getField inst f = some w ∧ v = truncateVal cmp w := by
  obtain ⟨f, hf, he⟩ := List.mem_filterMap.mp h
  rcases Option.map_eq_some'.mp he with ⟨w, hw, hkv⟩
  cases hkv
  exact ⟨f, hf, rfl, w, hw, rfl⟩

theorem scrubKey_inj (cmp : Comparator) (f1 f2 : String)
    (h : scrubKey cmp f1 = scrubKey cmp f2) : f1 = f2 := by
  have hd := congrArg String.data h
  simp only [scrubKey, String.data_append, List.append_assoc] at hd
  exact String.ext (List.append_cancel_left (List.append_cancel_left hd))

theorem fieldWrites_keys_nodup (cmp : Comparator) (inst : MInst) :
    ∀ fs : List String, fs.Nodup → ((fieldWrites cmp inst fs).map Prod.fst).Nodup := by
  intro fs
  induction fs with
  | nil =>
    intro h
    simp [fieldWrites]
  | cons f rest ih =>
    intro h
    simp only [List.nodup_cons] at h
    cases hg : getField inst f with
    | none =>
      have hred : fieldWrites cmp inst (f :: rest) = fieldWrites cmp inst rest := by
        simp [fieldWrites, hg]
      rw [hred]
      exact ih h.2
    | some w =>
      have hred : fieldWrites cmp inst (f :: rest)
          = (scrubKey cmp f, truncateVal cmp w) :: fieldWrites cmp inst rest := by
        simp [fieldWrites, hg]
      rw [hred]
      simp only [List.map_cons, List.nodup_cons]
      refine ⟨?_, ih h.2⟩
      intro hmem
      obtain ⟨⟨k2, v2⟩, hm2, he2⟩ := List.mem_map.mp hmem
      obtain ⟨f2, hf2, hk2, -⟩ := mem_fieldWrites cmp inst k2 v2 rest hm2
      have hff : f = f2 := scrubKey_inj cmp f f2 (he2.symm.trans hk2)
      exact h.1 (by rw [hff]; exact hf2)

/-- C9: for every comparator whose owned fields are distinct and every
instance pair, scrub is idempotent — applying it twice to the same pair
produces a scrub record identical to applying it once — and it never
removes or alters any original (non-scrub) field value: it only adds
entries under the reserved scrub key, keyed "<ComparatorKind>::<field>"
and holding the obfuscated sequence (a sequence even for scalar
fields). -/
theorem claim_C9 (cmp : Comparator) (l r : MInst) (hnd : cmp.fields.Nodup) :
    Cmp.scrub cmp (Cmp.scrub cmp l r).1 (Cmp.scrub cmp l r).2 = Cmp.scrub cmp l r ∧
    (Cmp.scrub cmp l r).1.fields = l.fields ∧
    (Cmp.scrub cmp l r).2.fields = r.fields ∧
    (∀ k v, (k, v) ∈ (Cmp.scrub cmp l r).1.scrubbed →
      (k, v) ∈ l.scrubbed ∨
        ∃ f ∈ cmp.fields, k = scrubKey cmp f ∧
          ∃ w, getField l f = some w ∧ v = truncateVal cmp w) ∧
    (∀ k v, (k, v) ∈ (Cmp.scrub cmp l r).2.scrubbed →
      (k, v) ∈ r.scrubbed ∨
        ∃ f ∈ cmp.fields, k = scrubKey cmp f ∧
          ∃ w, getField r f = some w ∧ v = truncateVal cmp w) := by
  have hidem : ∀ inst : MInst,
      Cmp.scrubOne cmp (Cmp.scrubOne cmp inst) = Cmp.scrubOne cmp inst := by
    intro inst
    have h1 : Cmp.scrubOne cmp (Cmp.scrubOne cmp inst) = { inst with scrubbed := applyAll (fieldWrites cmp inst cmp.fields) (applyAll (fieldWrites cmp inst cmp.fields) inst.scrubbed) } := rfl
    rw [h1, applyAll_idem (fieldWrites cmp inst cmp.fields)
      (fieldWrites_keys_nodup cmp inst cmp.fields hnd)]
    rfl
  refine ⟨?_, rfl, rfl, ?_, ?_⟩
  · show (Cmp.scrubOne cmp (Cmp.scrubOne cmp l), Cmp.scrubOne cmp (Cmp.scrubOne cmp r))
      = (Cmp.scrubOne cmp l, Cmp.scrubOne cmp r)
    rw [hidem l, hidem r]
  · intro k v h
    rcases mem_applyAll k v (fieldWrites cmp l cmp.fields) l.scrubbed h with h1 | h2
    · exact Or.inl h1
    · exact Or.inr (mem_fieldWrites cmp l k v cmp.fields h2)
  · intro k v h
    rcases mem_applyAll k v (fieldWrites cmp r cmp.fields) r.scrubbed h with h1 | h2
    · exact Or.inl h1
    · exact Or.inr (mem_fieldWrites cmp r k v cmp.fields h2)

theorem claim_C9_witness :
    (EmailObfuscatingComparator "one_email" "many_emails").fields.Nodup ∧
    Cmp.scrub (EmailObfuscatingComparator "one_email" "many_emails")
        (Cmp.scrub (EmailObfuscatingComparator "one_email" "many_emails")
          emailLeft emailRight).1
        (Cmp.scrub (EmailObfuscatingComparator "one_email" "many_emails")
          emailLeft emailRight).2
      = Cmp.scrub (EmailObfuscatingComparator "one_email" "many_emails")
          emailLeft emailRight ∧
    (Cmp.scrub (EmailObfuscatingComparator "one_email" "many_emails")
        emailLeft emailRight).1.fields = emailLeft.fields ∧
    (Cmp.scrub (EmailObfuscatingComparator "one_email" "many_emails")
        emailLeft emailRight).2.fields = emailRight.fields :=
  ⟨by decide,
    (claim_C9 (EmailObfuscatingComparator "one_email" "many_emails")
      emailLeft emailRight (by decide)).1,
    (claim_C9 (EmailObfuscatingComparator "one_email" "many_emails")
      emailLeft emailRight (by decide)).2.1,
    (claim_C9 (EmailObfuscatingComparator "one_email" "many_emails")
      emailLeft emailRight (by decide)).2.2.1⟩

/-! ## Export model filter (`export`, backup.py lines 172-193)

The exclude option handling: `exclude.lower().split(",")` and the skip
condition of `yield_objects`. -/

/-- Embedding of Python `str.lower` on the ASCII fragment model class
names use: character-wise lowercasing. -/
def pyLower (s : String) : String := ⟨s.data.map Char.toLower⟩

/-- Embedding of the exclude-option parse (backup.py lines 175-178): an
omitted option yields the empty tuple, otherwise the option string is
lower-cased and split on commas. -/
def parseExclude (opt : Option String) : List String :=
  match opt with
  | none => []
  | some s => (splitOnChar ',' (pyLower s).data).map (fun l => (⟨l⟩ : String))

/-- The per-model metadata read by the export skip condition: class
name, `__include_in_export__` flag, proxy flag. -/
structure ExportModel where
  name : String
  includeInExport : Bool
  proxy : Bool
deriving DecidableEq, Repr

/-- Embedding of the skip condition of `yield_objects` (backup.py lines
183-187): a model is skipped when it is flagged non-includable, its
lower-cased class name is in the exclude list, or it is a proxy
model. -/
def skipModel (exclude : List String) (m : ExportModel) : Bool :=
  !m.includeInExport || exclude.contains (pyLower m.name) || m.proxy

theorem toNat_ofNat_valid (n : Nat) (h : n < 55296) : (Char.ofNat n).toNat = n := by
  rw [Char.ofNat, dif_pos (Or.inl h : Nat.isValidChar n)]
  simp [Char.ofNatAux, Char.toNat, UInt32.toNat]

theorem toLower_eq_comma_iff (c : Char) : Char.toLower c = ',' ↔ c = ',' := by
  constructor
  · intro h
    rw [Char.toLower] at h
    split at h
    · exfalso
      next hcond =>
        have h2 := congrArg Char.toNat h
        rw [toNat_ofNat_valid (c.toNat + 32) (by omega)] at h2
        have h44 : Char.toNat ',' = 44 := by decide
        omega
    · exact h
  · intro h
    subst h
    decide

theorem splitOnChar_map_toLower (l : List Char) :
    splitOnChar ',' (l.map Char.toLower)
      = (splitOnChar ',' l).map (List.map Char.toLower) := by
  induction l with
  | nil => simp [splitOnChar]
  | cons c rest ih =>
    by_cases hc : c = ','
    · subst hc
      have hlc : Char.toLower ',' = ',' := by decide
      simp only [List.map_cons, hlc, splitOnChar, if_pos rfl, ih, List.map_nil]
      simp
    · have hlc : ¬Char.toLower c = ',' := fun h => hc ((toLower_eq_comma_iff c).mp h)
      simp only [List.map_cons, splitOnChar, if_neg hlc, if_neg hc, ih]
      cases hs : splitOnChar ',' rest with
      | nil => simp
      | cons g gs => simp

/-- C10: the export exclude option is matched case-insensitively — an
omitted option excludes no model, the option string is lower-cased
before being split on commas and compared against each model's
lower-cased class name, so a model is skipped whenever its name matches
an exclude entry regardless of the letter case of either side. -/
theorem claim_C10 :
    (∀ m : ExportModel, skipModel (parseExclude none) m
      = (!m.includeInExport || m.proxy)) ∧
    (∀ (s : String) (entry name : String),
      entry ∈ (splitOnChar ',' s.data).map (fun l => (⟨l⟩ : String)) →
      pyLower name = pyLower entry →
      ∀ m : ExportModel, m.name = name → m.includeInExport = true →
        skipModel (parseExclude (some s)) m = true) ∧
    (∀ (s n1 n2 : String), pyLower n1 = pyLower n2 →
      ∀ inc px, skipModel (parseExclude (some s)) ⟨n1, inc, px⟩
        = skipModel (parseExclude (some s)) ⟨n2, inc, px⟩) := by
  refine ⟨?_, ?_, ?_⟩
  · intro m
    simp [skipModel, parseExclude]
  · intro s entry name hentry hlow m hname hinc
    obtain ⟨le, hle, hmk⟩ := List.mem_map.mp hentry
    have hsplit : (pyLower s).data = s.data.map Char.toLower := rfl
    have hmem : pyLower name ∈ parseExclude (some s) := by
      rw [parseExclude, hsplit, splitOnChar_map_toLower]
      rw [hlow, ← hmk]
      have : pyLower (⟨le⟩ : String) = ⟨le.map Char.toLower⟩ := rfl
      rw [this]
      rw [List.map_map]
      exact List.mem_map.mpr ⟨le, hle, rfl⟩
    rw [skipModel, hname]
    have hcont : (parseExclude (some s)).contains (pyLower name) = true := by
      simpa using hmem
    rw [hcont]
    simp
  · intro s n1 n2 h inc px
    simp [skipModel, h]

/-- Demonstration exclude string for the C10 witness. -/
def demoExclude : String := "UserRole,ApiToken"

theorem claim_C10_witness :
    ("UserRole" ∈ (splitOnChar ',' demoExclude.data).map (fun l => (⟨l⟩ : String))) ∧
    pyLower "USERROLE" = pyLower "UserRole" ∧
    skipModel (parseExclude (some demoExclude)) ⟨"USERROLE", true, false⟩ = true ∧
    skipModel (parseExclude none) ⟨"USERROLE", true, false⟩
      = (!(true : Bool) || false) :=
  ⟨by decide, by decide,
    claim_C10.2.1 demoExclude "UserRole" "USERROLE" (by decide) (by decide)
      ⟨"USERROLE", true, false⟩ rfl rfl,
    claim_C10.1 ⟨"USERROLE", true, false⟩⟩
